/-
Verification of the zvec-native vector-collection core.

Shallow embedding of the Rust sources:
  * src/collection.rs — the Collection struct and its operations;
  * src/persistence.rs — the snapshot codec (metadata.json);
  * src/lib.rs — the napi façade and the process-wide registry.

Modelling conventions:
  * Rust HashMap / HashSet are modelled as association lists / lists whose
    element order stands for the map's (unspecified) iteration order;
    insertion replaces in place, fresh keys are appended.
  * `usize` is modelled as Nat (the sources never rely on wrap-around of ids).
  * `f32` vector components are modelled by their 32-bit patterns (Nat < 2^32):
    the repository never does arithmetic on components, it only moves bytes.
  * Distances and scores reported by the external hnsw_rs index are modelled
    as rationals; the index itself (an external crate, out of scope per the
    spec) is abstracted to the list of neighbours it returns.
  * File-system writes are modelled by returning the Metadata value written;
    reads by an `Option Metadata` argument (`none` = no metadata.json).
-/
import Mathlib

set_option maxHeartbeats 1000000

/-! ## Association-list maps (model of Rust HashMap) -/

/-- Lookup in an association list (HashMap::get). -/
def mget {α β : Type} [DecidableEq α] (k : α) : List (α × β) → Option β
  | [] => none
  | (k', v) :: rest => if k' = k then some v else mget k rest

/-- Remove a key (HashMap::remove). -/
def mremove {α β : Type} [DecidableEq α] (k : α) (l : List (α × β)) : List (α × β) :=
  l.filter (fun p => p.1 ≠ k)

/-- Insert-or-replace (HashMap::insert): replaces in place, appends if fresh. -/
def mput {α β : Type} [DecidableEq α] (k : α) (v : β) : List (α × β) → List (α × β)
  | [] => [(k, v)]
  | (k', v') :: rest => if k' = k then (k, v) :: rest else (k', v') :: mput k v rest

/-- The keys of an association list. -/
def mkeys {α β : Type} (l : List (α × β)) : List α := l.map Prod.fst

/-- Membership test (HashMap::contains_key). -/
def mcontains {α β : Type} [DecidableEq α] (k : α) (l : List (α × β)) : Bool :=
  (mget k l).isSome

/-! ## List sets (model of Rust HashSet of String) -/

/-- HashSet::insert — adds the element if absent. -/
def sinsert (x : String) (s : List String) : List String :=
  if x ∈ s then s else s ++ [x]

/-- HashSet::remove — removes the element. -/
def sremove (x : String) (s : List String) : List String :=
  s.filter (fun y => y ≠ x)

/-- HashSet::contains. -/
def smem (x : String) (s : List String) : Bool := x ∈ s

/-! ## The Collection data model (src/collection.rs) -/

/-- A neighbour returned by the external hnsw_rs search: internal id and
cosine distance. The distance is idealised as a rational. -/
structure Neighbour where
  d_id : Nat
  distance : ℚ
  deriving DecidableEq, Repr

/-- The Collection struct of src/collection.rs.  The HNSW graph, whose
internals live in the external hnsw_rs crate, is modelled by the sequence of
(vector, internal id) pairs inserted into it, in insertion order. -/
structure Collection where
  hnsw : List (List Nat × Nat)
  id_map : List (String × Nat)
  reverse_map : List (Nat × String)
  deleted_ids : List String
  next_id : Nat
  dimensions : Nat
  path : String
  dirty : Bool
  vectors : List (Nat × List Nat)
  deriving DecidableEq, Repr

namespace Collection

/-- Collection::new — empty collection with a fresh graph. -/
def new (path : String) (dimensions : Nat) : Collection :=
  { hnsw := []
    id_map := []
    reverse_map := []
    deleted_ids := []
    next_id := 0
    dimensions := dimensions
    path := path
    dirty := false
    vectors := [] }

/-- Collection::rebuild_from_vectors — discard the graph and re-insert every
stored vector whose external id is known and not tombstoned, in the vector
store's iteration order. -/
def rebuild_from_vectors (c : Collection) : Collection :=
  { c with hnsw :=
      (c.vectors.filter (fun p =>
        match mget p.1 c.reverse_map with
        | some uuid => ¬ (smem uuid c.deleted_ids)
        | none => false)).map (fun p => (p.2, p.1)) }

/-- Collection::insert_vector — upsert by external id. -/
def insert_vector (c : Collection) (id : String) (vector : List Nat) : Collection :=
  let c :=
    match mget id c.id_map with
    | some old_internal =>
      { c with deleted_ids := sinsert id c.deleted_ids
               vectors := mremove old_internal c.vectors
               reverse_map := mremove old_internal c.reverse_map }
    | none => c
  let internal_id := c.next_id
  { c with next_id := c.next_id + 1
           id_map := mput id internal_id c.id_map
           reverse_map := mput internal_id id c.reverse_map
           vectors := mput internal_id vector c.vectors
           deleted_ids := sremove id c.deleted_ids
           hnsw := c.hnsw ++ [(vector, internal_id)]
           dirty := true }

/-- The filtering loop of Collection::search_vectors, walking the neighbours
reported by the index and collecting at most k non-tombstoned survivors. -/
def searchAccum (c : Collection) (k : Nat) : List Neighbour → List (String × ℚ) → List (String × ℚ)
  | [], out => out
  | nb :: rest, out =>
    if k ≤ out.length then out
    else
      match mget nb.d_id c.reverse_map with
      | some uuid =>
        if smem uuid c.deleted_ids then searchAccum c k rest out
        else searchAccum c k rest (out ++ [(uuid, 1 - nb.distance)])
      | none => searchAccum c k rest out

/-- Collection::search_vectors.  The call into the external index,
`self.hnsw.search(query, k + deleted, ef)`, is abstracted by the `results`
argument: the neighbour list the index reports for this query. -/
def search_vectors (c : Collection) (_query : List Nat) (k : Nat)
    (results : List Neighbour) : List (String × ℚ) :=
  searchAccum c k results []

/-- Collection::delete_vector — tombstone a live external id. -/
def delete_vector (c : Collection) (id : String) : Bool × Collection :=
  if mcontains id c.id_map ∧ ¬ (smem id c.deleted_ids) then
    (true, { c with deleted_ids := sinsert id c.deleted_ids, dirty := true })
  else
    (false, c)

/-- Collection::active_count — |id_map| − |deleted_ids| by truncated (Rust:
potentially underflowing) usize subtraction. -/
def active_count (c : Collection) : Nat :=
  c.id_map.length - c.deleted_ids.length

end Collection

/-! ## Base64 codec (model of the base64 crate's STANDARD engine) -/

/-- The base64 standard-alphabet character for a sextet. -/
def b64Char (n : Nat) : Char :=
  if n < 26 then Char.ofNat (65 + n)
  else if n < 52 then Char.ofNat (97 + (n - 26))
  else if n < 62 then Char.ofNat (48 + (n - 52))
  else if n = 62 then '+'
  else '/'

/-- The sextet value of a base64 character, none for a non-alphabet char. -/
def b64Val (ch : Char) : Option Nat :=
  if 65 ≤ ch.toNat ∧ ch.toNat ≤ 90 then some (ch.toNat - 65)
  else if 97 ≤ ch.toNat ∧ ch.toNat ≤ 122 then some (26 + (ch.toNat - 97))
  else if 48 ≤ ch.toNat ∧ ch.toNat ≤ 57 then some (52 + (ch.toNat - 48))
  else if ch = '+' then some 62
  else if ch = '/' then some 63
  else none

/-- base64 STANDARD encode: bytes to padded character groups. -/
def b64EncodeBytes : List Nat → List Char
  | [] => []
  | [a] => [b64Char (a / 4), b64Char (a % 4 * 16), '=', '=']
  | [a, b] => [b64Char (a / 4), b64Char (a % 4 * 16 + b / 16), b64Char (b % 16 * 4), '=']
  | a :: b :: cc :: rest =>
    b64Char (a / 4) :: b64Char (a % 4 * 16 + b / 16) ::
      b64Char (b % 16 * 4 + cc / 64) :: b64Char (cc % 64) :: b64EncodeBytes rest

/-- base64 STANDARD decode: requires canonical padding and zero trailing
bits, as the crate's STANDARD engine does. -/
def b64DecodeBytes : List Char → Option (List Nat)
  | [] => some []
  | c1 :: c2 :: c3 :: c4 :: rest =>
    (match b64Val c1, b64Val c2 with
     | some v1, some v2 =>
       if c3 = '=' then
         if c4 = '=' ∧ rest = [] ∧ v2 % 16 = 0 then some [v1 * 4 + v2 / 16] else none
       else
         match b64Val c3 with
         | some v3 =>
           if c4 = '=' then
             if rest = [] ∧ v3 % 4 = 0 then some [v1 * 4 + v2 / 16, v2 % 16 * 16 + v3 / 4]
             else none
           else
             match b64Val c4 with
             | some v4 =>
               match b64DecodeBytes rest with
               | some bs =>
                 some ((v1 * 4 + v2 / 16) :: (v2 % 16 * 16 + v3 / 4) :: (v3 % 4 * 64 + v4) :: bs)
               | none => none
             | none => none
         | none => none
     | _, _ => none)
  | _ => none

/-! ## Decimal stringification (usize::to_string and str::parse) -/

/-- The ASCII character of a decimal digit. -/
def digitChar10 (d : Nat) : Char := Char.ofNat (48 + d)

/-- The digit value of an ASCII character, none if not a digit. -/
def charDigit (ch : Char) : Option Nat :=
  if 48 ≤ ch.toNat ∧ ch.toNat ≤ 57 then some (ch.toNat - 48) else none

/-- Little-endian decimal digits of n, with explicit structural fuel so that
the kernel can evaluate it (n itself is enough fuel). -/
def natDigitsAux : Nat → Nat → List Nat
  | 0, _ => []
  | _ + 1, 0 => []
  | fuel + 1, n + 1 => (n + 1) % 10 :: natDigitsAux fuel ((n + 1) / 10)

/-- Little-endian decimal digits of n. -/
def natDigits (n : Nat) : List Nat := natDigitsAux n n

/-- usize::to_string — most-significant-first decimal digits. -/
def natToChars (n : Nat) : List Char :=
  if n = 0 then [Char.ofNat 48] else (natDigits n).reverse.map digitChar10

/-- Parse a nonempty all-digit character list. -/
def parseDigits (cs : List Char) : Option Nat :=
  if cs = [] then none
  else if cs.all (fun ch => (charDigit ch).isSome) then
    some (Nat.ofDigits 10 ((cs.map (fun ch => (charDigit ch).getD 0)).reverse))
  else none

/-- str::parse::<usize> — optional leading plus sign, then digits. -/
def parseUsize (cs : List Char) : Option Nat :=
  if cs.head? = some '+' then parseDigits cs.tail else parseDigits cs

/-! ## Little-endian f32 byte codec (f32::to_le_bytes / from_le_bytes) -/

/-- f32::to_le_bytes on the 32-bit pattern. -/
def f32ToLeBytes (bits : Nat) : List Nat :=
  [bits % 256, bits / 256 % 256, bits / 65536 % 256, bits / 16777216 % 256]

/-- The byte serialisation of a whole vector (flat_map of to_le_bytes). -/
def vecToLeBytes (v : List Nat) : List Nat :=
  v.foldr (fun f acc => f32ToLeBytes f ++ acc) []

/-- f32::from_le_bytes on four byte values. -/
def f32FromLeBytes (b0 b1 b2 b3 : Nat) : Nat :=
  b0 + 256 * b1 + 65536 * b2 + 16777216 * b3

/-- bytes.chunks_exact(4).map(f32::from_le_bytes): the trailing remainder of
fewer than 4 bytes is silently dropped. -/
def chunks4 : List Nat → List Nat
  | b0 :: b1 :: b2 :: b3 :: rest => f32FromLeBytes b0 b1 b2 b3 :: chunks4 rest
  | _ => []

/-! ## Snapshot codec (src/persistence.rs) -/

/-- The Metadata struct serialised to metadata.json.  Vector keys are the
stringified internal ids; payloads are base64 character strings. -/
structure Metadata where
  dimensions : Nat
  next_id : Nat
  id_map : List (String × Nat)
  deleted_ids : List String
  vectors : List (List Char × List Char)
  deriving DecidableEq, Repr

/-- save_collection — pure part: the Metadata value written to disk
(directory creation and fs::write are outside the model). -/
def save_collection (c : Collection) : Metadata :=
  { dimensions := c.dimensions
    next_id := c.next_id
    id_map := c.id_map
    deleted_ids := c.deleted_ids
    vectors := c.vectors.foldl
      (fun acc p => mput (natToChars p.1) (b64EncodeBytes (vecToLeBytes p.2)) acc) [] }

/-- The vector-decoding loop of load_collection: parse each stringified id,
base64-decode each payload, store the chunked f32 patterns.  No check that
the decoded byte length equals 4 * dimensions is performed. -/
def decodeVectorsLoop : List (List Char × List Char) → List (Nat × List Nat) →
    Except String (List (Nat × List Nat))
  | [], acc => Except.ok acc
  | (idStr, payload) :: rest, acc =>
    match parseUsize idStr with
    | none => Except.error "Invalid internal ID"
    | some internal_id =>
      match b64DecodeBytes payload with
      | none => Except.error "Failed to decode vector"
      | some bytes => decodeVectorsLoop rest (mput internal_id (chunks4 bytes) acc)

/-- load_collection — `onDisk = none` models an absent metadata.json. -/
def load_collection (onDisk : Option Metadata) (path : String) :
    Except String (Option Collection) :=
  match onDisk with
  | none => Except.ok none
  | some metadata =>
    let c0 := Collection.new path metadata.dimensions
    let c1 := { c0 with next_id := metadata.next_id
                        id_map := metadata.id_map
                        deleted_ids := metadata.deleted_ids }
    match decodeVectorsLoop metadata.vectors [] with
    | Except.error e => Except.error e
    | Except.ok vecs =>
      let c2 := { c1 with vectors := vecs }
      let rm := c2.id_map.foldl (fun acc p => mput p.2 p.1 acc) []
      let c3 := { c2 with reverse_map := rm }
      Except.ok (some (Collection.rebuild_from_vectors c3))

/-! ## The napi façade and registry (src/lib.rs) -/

structure CollectionConfig where
  path : String
  dimensions : Nat
  index_type : String
  metric : String
  deriving DecidableEq, Repr

/-- The process-wide COLLECTIONS registry, keyed by path. -/
abbrev Registry := List (String × Collection)

/-- create_collection — validation, idempotence check, then load-or-new. -/
def create_collection (config : CollectionConfig) (collections : Registry)
    (onDisk : Option Metadata) : Except String Registry :=
  if config.metric ≠ "cosine" then
    Except.error "Unsupported metric. Only cosine is supported."
  else if config.index_type ≠ "hnsw" then
    Except.error "Unsupported index type. Only hnsw is supported."
  else if config.dimensions = 0 then
    Except.error "Dimensions must be greater than 0"
  else if mcontains config.path collections then
    Except.ok collections
  else
    match load_collection onDisk config.path with
    | Except.ok (some existing) =>
      if existing.dimensions ≠ config.dimensions then
        Except.error "Dimension mismatch between existing collection and request"
      else Except.ok (mput config.path existing collections)
    | Except.ok none =>
      Except.ok (mput config.path (Collection.new config.path config.dimensions) collections)
    | Except.error _ => Except.error "Failed to load collection"

/-- insert_vector (façade) — dimension check then Collection::insert_vector. -/
def insert_vector_f (collections : Registry) (path : String) (id : String)
    (vector : List Nat) : Except String Registry :=
  match mget path collections with
  | none => Except.error "Collection not found"
  | some coll =>
    if vector.length ≠ coll.dimensions then Except.error "Dimension mismatch"
    else Except.ok (mput path (coll.insert_vector id vector) collections)

/-- One iteration of build_index's compaction: drop a tombstoned external id
from the vector store, reverse_map and id_map. -/
def removeDeletedStep (c : Collection) (uuid : String) : Collection :=
  match mget uuid c.id_map with
  | some internal_id =>
    { c with vectors := mremove internal_id c.vectors
             reverse_map := mremove internal_id c.reverse_map
             id_map := mremove uuid c.id_map }
  | none => { c with id_map := mremove uuid c.id_map }

/-- build_index on one collection: compacting rebuild when tombstones are
pending, then persist (the returned Metadata is the file written), then
clear the dirty flag. -/
def build_index_collection (c : Collection) : Collection × Metadata :=
  let c1 :=
    if c.deleted_ids.isEmpty then c
    else
      let c' := c.deleted_ids.foldl removeDeletedStep c
      Collection.rebuild_from_vectors { c' with deleted_ids := [] }
  ({ c1 with dirty := false }, save_collection c1)

/-- search (façade) — not-found and dimension errors, empty short-circuit on
active_count = 0, then Collection::search_vectors. -/
def search_f (collections : Registry) (path : String) (query : List Nat) (k : Nat)
    (results : List Neighbour) : Except String (List (String × ℚ)) :=
  match mget path collections with
  | none => Except.error "Collection not found"
  | some coll =>
    if query.length ≠ coll.dimensions then Except.error "Query dimension mismatch"
    else if coll.active_count = 0 then Except.ok []
    else Except.ok (coll.search_vectors query k results)

/-- delete_vector (façade). -/
def delete_vector_f (collections : Registry) (path : String) (id : String) :
    Except String (Bool × Registry) :=
  match mget path collections with
  | none => Except.error "Collection not found"
  | some coll =>
    let r := coll.delete_vector id
    Except.ok (r.1, mput path r.2 collections)

/-- The count field of stats: active_count of the addressed collection. -/
def stats_count (collections : Registry) (path : String) : Except String Nat :=
  match mget path collections with
  | none => Except.error "Collection not found"
  | some coll => Except.ok coll.active_count

/-- Collection states reachable from a fresh collection through the façade's
mutating operations (insert, delete, checkpoint). -/
inductive Reachable : Collection → Prop where
  | new (path : String) (dims : Nat) : Reachable (Collection.new path dims)
  | insert (c : Collection) (id : String) (v : List Nat) :
      Reachable c → Reachable (c.insert_vector id v)
  | delete (c : Collection) (id : String) :
      Reachable c → Reachable (c.delete_vector id).2
  | checkpoint (c : Collection) :
      Reachable c → Reachable (build_index_collection c).1

/-! ## Lemmas about the map and set models -/

theorem mget_mput_self {α β : Type} [DecidableEq α] (k : α) (v : β) (l : List (α × β)) :
    mget k (mput k v l) = some v := by
  induction l with
  | nil => simp [mput, mget]
  | cons p rest ih =>
    obtain ⟨k', v'⟩ := p
    by_cases h : k' = k
    · subst h; simp [mput, mget]
    · simp [mput, mget, h, ih]

theorem mget_mput_ne {α β : Type} [DecidableEq α] {k k' : α} (v : β) (l : List (α × β))
    (h : k' ≠ k) : mget k (mput k' v l) = mget k l := by
  induction l with
  | nil => simp [mput, mget, h]
  | cons p rest ih =>
    obtain ⟨k'', v'⟩ := p
    by_cases h2 : k'' = k'
    · subst h2; simp [mput, mget, h]
    · by_cases h3 : k'' = k
      · subst h3; simp [mput, mget, h2, Ne.symm h]
      · simp [mput, mget, h2, h3, ih]

theorem mremove_cons {α β : Type} [DecidableEq α] (k : α) (p : α × β) (l : List (α × β)) :
    mremove k (p :: l) = if p.1 = k then mremove k l else p :: mremove k l := by
  by_cases h : p.1 = k <;> simp [mremove, List.filter_cons, h]

theorem mget_mremove_self {α β : Type} [DecidableEq α] (k : α) (l : List (α × β)) :
    mget k (mremove k l) = none := by
  induction l with
  | nil => simp [mremove, mget]
  | cons p rest ih =>
    obtain ⟨k', v'⟩ := p
    rw [mremove_cons]
    by_cases h : k' = k
    · simpa [h] using ih
    · simpa [mget, h] using ih

theorem mget_mremove_ne {α β : Type} [DecidableEq α] {k k' : α} (l : List (α × β))
    (h : k' ≠ k) : mget k (mremove k' l) = mget k l := by
  induction l with
  | nil => simp [mremove, mget]
  | cons p rest ih =>
    obtain ⟨k'', v'⟩ := p
    rw [mremove_cons]
    by_cases h2 : k'' = k'
    · subst h2; simp [mget, h, Ne.symm h, ih]
    · by_cases h3 : k'' = k
      · subst h3; simp [mget, h2, ih]
      · simp [mget, h2, h3, ih]

theorem mget_isSome_iff_mem_keys {α β : Type} [DecidableEq α] (k : α) (l : List (α × β)) :
    (mget k l).isSome ↔ k ∈ mkeys l := by
  induction l with
  | nil => simp [mget, mkeys]
  | cons p rest ih =>
    obtain ⟨k', v'⟩ := p
    by_cases h : k' = k
    · subst h; simp [mget, mkeys]
    · simp [mget, mkeys, h, Ne.symm h, ih]

theorem mem_of_mget_eq_some {α β : Type} [DecidableEq α] {k : α} {v : β} {l : List (α × β)}
    (h : mget k l = some v) : (k, v) ∈ l := by
  induction l with
  | nil => simp [mget] at h
  | cons p rest ih =>
    obtain ⟨k', v'⟩ := p
    by_cases h2 : k' = k
    · subst h2
      simp [mget] at h
      simp [h]
    · simp [mget, h2] at h
      exact List.mem_cons_of_mem _ (ih h)

theorem mkeys_mput {α β : Type} [DecidableEq α] (k : α) (v : β) (l : List (α × β)) :
    mkeys (mput k v l) = if k ∈ mkeys l then mkeys l else mkeys l ++ [k] := by
  induction l with
  | nil => simp [mput, mkeys]
  | cons p rest ih =>
    obtain ⟨k', v'⟩ := p
    by_cases h : k' = k
    · subst h; simp [mput, mkeys]
    · have hkk : k ≠ k' := Ne.symm h
      rw [show mput k v ((k', v') :: rest) = (k', v') :: mput k v rest from by simp [mput, h]]
      rw [show mkeys ((k', v') :: mput k v rest) = k' :: mkeys (mput k v rest) from by
        simp [mkeys]]
      rw [show mkeys ((k', v') :: rest) = k' :: mkeys rest from by simp [mkeys]]
      rw [ih]
      by_cases h2 : k ∈ mkeys rest
      · simp [h2]
      · simp [h2, hkk]

theorem mput_fresh {α β : Type} [DecidableEq α] (k : α) (v : β) (l : List (α × β))
    (h : ¬ k ∈ mkeys l) : mput k v l = l ++ [(k, v)] := by
  induction l with
  | nil => simp [mput]
  | cons p rest ih =>
    obtain ⟨k', v'⟩ := p
    simp only [mkeys, List.map_cons, List.mem_cons, not_or] at h
    have h1 : k' ≠ k := Ne.symm h.1
    simp [mput, h1, ih h.2]

theorem mem_mput {α β : Type} [DecidableEq α] {p : α × β} {k : α} {v : β} {l : List (α × β)}
    (h : p ∈ mput k v l) : p = (k, v) ∨ p ∈ l := by
  induction l with
  | nil => simpa [mput] using h
  | cons q rest ih =>
    obtain ⟨k', v'⟩ := q
    by_cases h2 : k' = k
    · subst h2
      simp [mput] at h
      rcases h with h | h
      · exact Or.inl h
      · exact Or.inr (List.mem_cons_of_mem _ h)
    · simp [mput, h2] at h
      rcases h with h | h
      · exact Or.inr (by simp [h])
      · rcases ih h with h3 | h3
        · exact Or.inl h3
        · exact Or.inr (List.mem_cons_of_mem _ h3)

theorem mremove_sublist {α β : Type} [DecidableEq α] (k : α) (l : List (α × β)) :
    (mremove k l).Sublist l := List.filter_sublist l

theorem mkeys_nodup_mput {α β : Type} [DecidableEq α] (k : α) (v : β) (l : List (α × β))
    (h : (mkeys l).Nodup) : (mkeys (mput k v l)).Nodup := by
  rw [mkeys_mput]
  by_cases h2 : k ∈ mkeys l
  · simp [h2, h]
  · simp [h2, List.nodup_append, h]

theorem mkeys_nodup_mremove {α β : Type} [DecidableEq α] (k : α) (l : List (α × β))
    (h : (mkeys l).Nodup) : (mkeys (mremove k l)).Nodup :=
  ((mremove_sublist k l).map Prod.fst).nodup h

theorem smem_iff (x : String) (s : List String) : smem x s = true ↔ x ∈ s := by
  simp [smem]

theorem mem_sinsert {x y : String} {s : List String} (h : x ∈ sinsert y s) :
    x ∈ s ∨ x = y := by
  by_cases h2 : y ∈ s
  · simp [sinsert, h2] at h; exact Or.inl h
  · simp [sinsert, h2] at h; exact h

theorem sinsert_of_not_mem {x : String} {s : List String} (h : ¬ x ∈ s) :
    sinsert x s = s ++ [x] := by simp [sinsert, h]

theorem not_mem_sremove (x : String) (s : List String) : ¬ x ∈ sremove x s := by
  simp [sremove]

theorem mem_sremove {x y : String} {s : List String} (h : x ∈ sremove y s) :
    x ∈ s ∧ x ≠ y := by
  simpa [sremove] using h

theorem sinsert_nodup {x : String} {s : List String} (h : s.Nodup) :
    (sinsert x s).Nodup := by
  by_cases h2 : x ∈ s
  · simpa [sinsert, h2] using h
  · simp [sinsert, h2, List.nodup_append, h]

theorem sremove_nodup {x : String} {s : List String} (h : s.Nodup) :
    (sremove x s).Nodup := (List.filter_sublist s).nodup h

/-! ## Codec round-trip lemmas -/

theorem b64Val_b64Char : ∀ n < 64, b64Val (b64Char n) = some n := by decide

theorem b64Char_ne_pad : ∀ n < 64, b64Char n ≠ '=' := by decide

theorem b64_roundtrip : ∀ bs : List Nat, (∀ b ∈ bs, b < 256) →
    b64DecodeBytes (b64EncodeBytes bs) = some bs := by
  intro bs
  induction bs using b64EncodeBytes.induct with
  | case1 =>
    intro _; simp [b64EncodeBytes, b64DecodeBytes]
  | case2 a =>
    intro h
    have ha : a < 256 := h a (by simp)
    have e1 := b64Val_b64Char (a / 4) (by omega)
    have e2 := b64Val_b64Char (a % 4 * 16) (by omega)
    simp [b64EncodeBytes, b64DecodeBytes, e1, e2]
    omega
  | case3 a b =>
    intro h
    have ha : a < 256 := h a (by simp)
    have hb : b < 256 := h b (by simp)
    have e1 := b64Val_b64Char (a / 4) (by omega)
    have e2 := b64Val_b64Char (a % 4 * 16 + b / 16) (by omega)
    have e3 := b64Val_b64Char (b % 16 * 4) (by omega)
    have ne3 := b64Char_ne_pad (b % 16 * 4) (by omega)
    simp [b64EncodeBytes, b64DecodeBytes, e1, e2, e3, ne3]
    omega
  | case4 a b cc rest ih =>
    intro h
    have ha : a < 256 := h a (by simp)
    have hb : b < 256 := h b (by simp)
    have hc : cc < 256 := h cc (by simp)
    have hrest : ∀ x ∈ rest, x < 256 := fun x hx => h x (by simp [hx])
    have e1 := b64Val_b64Char (a / 4) (by omega)
    have e2 := b64Val_b64Char (a % 4 * 16 + b / 16) (by omega)
    have e3 := b64Val_b64Char (b % 16 * 4 + cc / 64) (by omega)
    have e4 := b64Val_b64Char (cc % 64) (by omega)
    have ne3 := b64Char_ne_pad (b % 16 * 4 + cc / 64) (by omega)
    have ne4 := b64Char_ne_pad (cc % 64) (by omega)
    simp [b64EncodeBytes, b64DecodeBytes, e1, e2, e3, e4, ne3, ne4, ih hrest]
    omega

theorem natDigitsAux_eq (fuel n : Nat) (h : n ≤ fuel) :
    natDigitsAux fuel n = Nat.digits 10 n := by
  induction fuel generalizing n with
  | zero =>
    have : n = 0 := by omega
    subst this; simp [natDigitsAux]
  | succ fuel ih =>
    match n with
    | 0 => simp [natDigitsAux]
    | n + 1 =>
      rw [natDigitsAux, Nat.digits_def' (by norm_num : (1 : Nat) < 10) (Nat.succ_pos n)]
      rw [ih ((n + 1) / 10) (by omega)]

theorem natDigits_eq (n : Nat) : natDigits n = Nat.digits 10 n :=
  natDigitsAux_eq n n (Nat.le_refl n)

theorem charDigit_digitChar10 : ∀ d < 10, charDigit (digitChar10 d) = some d := by decide

theorem digitChar10_ne_plus : ∀ d < 10, digitChar10 d ≠ '+' := by decide

theorem parse_natToChars (n : Nat) : parseUsize (natToChars n) = some n := by
  by_cases h0 : n = 0
  · subst h0; decide
  · have hne : Nat.digits 10 n ≠ [] := Nat.digits_ne_nil_iff_ne_zero.mpr h0
    have hlt : ∀ d ∈ Nat.digits 10 n, d < 10 := fun d hd =>
      Nat.digits_lt_base (by norm_num) hd
    have hchars : ∀ ch ∈ (natDigits n).reverse.map digitChar10, ∃ d, d < 10 ∧ ch = digitChar10 d := by
      intro ch hch
      rw [natDigits_eq] at hch
      obtain ⟨d, hd, rfl⟩ := List.mem_map.mp hch
      exact ⟨d, hlt d (List.mem_reverse.mp hd), rfl⟩
    have hnil : (natDigits n).reverse.map digitChar10 ≠ [] := by
      rw [natDigits_eq]
      simp [hne]
    have hpd : parseDigits ((natDigits n).reverse.map digitChar10) = some n := by
      rw [parseDigits, if_neg hnil, if_pos]
      · congr 1
        rw [List.map_map]
        have hid : ∀ d ∈ (natDigits n).reverse,
            ((fun ch => (charDigit ch).getD 0) ∘ digitChar10) d = d := by
          intro d hd
          rw [natDigits_eq] at hd
          have hd10 := hlt d (List.mem_reverse.mp hd)
          simp [Function.comp, charDigit_digitChar10 d hd10]
        rw [List.map_congr_left hid]
        simp only [List.map_id_fun, List.map_id, List.map_id']
        rw [natDigits_eq, List.reverse_reverse, Nat.ofDigits_digits]
      · rw [List.all_eq_true]
        intro ch hch
        obtain ⟨d, hd10, rfl⟩ := hchars ch hch
        simp [charDigit_digitChar10 d hd10]
    rw [natToChars, if_neg h0, parseUsize, if_neg, hpd]
    intro hhead
    match hh : (natDigits n).reverse.map digitChar10 with
    | [] => exact hnil hh
    | c :: cs =>
      rw [hh] at hhead
      simp at hhead
      obtain ⟨d, hd10, hcd⟩ := hchars c (by rw [hh]; simp)
      exact digitChar10_ne_plus d hd10 (by rw [← hcd, hhead])

theorem natToChars_injective {a b : Nat} (h : natToChars a = natToChars b) : a = b := by
  have := parse_natToChars a
  rw [h, parse_natToChars b] at this
  exact (Option.some_injective Nat this).symm

theorem vecToLeBytes_lt (v : List Nat) : ∀ b ∈ vecToLeBytes v, b < 256 := by
  induction v with
  | nil => simp [vecToLeBytes]
  | cons x v ih =>
    intro b hb
    simp only [vecToLeBytes, List.foldr_cons] at hb
    rw [show (f32ToLeBytes x ++ v.foldr (fun f acc => f32ToLeBytes f ++ acc) []) =
      f32ToLeBytes x ++ vecToLeBytes v from rfl] at hb
    rcases List.mem_append.mp hb with h1 | h2
    · simp [f32ToLeBytes] at h1
      rcases h1 with rfl | rfl | rfl | rfl <;> omega
    · exact ih b h2

theorem chunks4_vecToLeBytes (v : List Nat) (h : ∀ x ∈ v, x < 4294967296) :
    chunks4 (vecToLeBytes v) = v := by
  induction v with
  | nil => simp [vecToLeBytes, chunks4]
  | cons x v ih =>
    have hx : x < 4294967296 := h x (by simp)
    have hrest : ∀ y ∈ v, y < 4294967296 := fun y hy => h y (by simp [hy])
    rw [show vecToLeBytes (x :: v) = f32ToLeBytes x ++ vecToLeBytes v from rfl]
    simp only [f32ToLeBytes, List.cons_append, List.nil_append]
    rw [chunks4, ih hrest, f32FromLeBytes]
    congr 1
    omega

/-! ## Save / load round trip -/

/-- Well-formedness of the in-memory vector store: distinct internal ids and
genuine 32-bit component patterns. -/
abbrev storeWF (c : Collection) : Prop :=
  (mkeys c.vectors).Nodup ∧ ∀ p ∈ c.vectors, ∀ b ∈ p.2, b < 4294967296

theorem mkeys_append {α β : Type} (l1 l2 : List (α × β)) :
    mkeys (l1 ++ l2) = mkeys l1 ++ mkeys l2 := by
  simp [mkeys]

theorem foldl_mput_eq_append (l : List (Nat × List Nat)) (acc : List (List Char × List Char))
    (hdisj : ∀ p ∈ l, ¬ natToChars p.1 ∈ mkeys acc) (hnod : (mkeys l).Nodup) :
    l.foldl (fun acc p => mput (natToChars p.1) (b64EncodeBytes (vecToLeBytes p.2)) acc) acc
      = acc ++ l.map (fun p => (natToChars p.1, b64EncodeBytes (vecToLeBytes p.2))) := by
  induction l generalizing acc with
  | nil => simp
  | cons p l ih =>
    simp only [List.foldl_cons, List.map_cons]
    rw [mput_fresh _ _ _ (hdisj p (List.mem_cons_self p l))]
    have hnodt : (mkeys l).Nodup := by
      simp only [mkeys, List.map_cons, List.nodup_cons] at hnod
      exact hnod.2
    have hhead : ¬ p.1 ∈ mkeys l := by
      simp only [mkeys, List.map_cons, List.nodup_cons] at hnod
      exact hnod.1
    rw [ih (acc ++ [(natToChars p.1, b64EncodeBytes (vecToLeBytes p.2))]) ?_ hnodt]
    · simp
    · intro q hq
      have h1 : ¬ natToChars q.1 ∈ mkeys acc := hdisj q (List.mem_cons_of_mem p hq)
      have h2 : natToChars q.1 ≠ natToChars p.1 := by
        intro he
        have hq1 : q.1 = p.1 := natToChars_injective he
        exact hhead (hq1 ▸ List.mem_map_of_mem Prod.fst hq)
      intro hq2
      rw [mkeys_append] at hq2
      rcases List.mem_append.mp hq2 with hA | hB
      · exact h1 hA
      · exact h2 (by simpa [mkeys] using hB)

theorem decodeVectorsLoop_save (l : List (Nat × List Nat)) (acc : List (Nat × List Nat))
    (hbits : ∀ p ∈ l, ∀ b ∈ p.2, b < 4294967296)
    (hfresh : ∀ p ∈ l, ¬ p.1 ∈ mkeys acc) (hnod : (mkeys l).Nodup) :
    decodeVectorsLoop (l.map (fun p => (natToChars p.1, b64EncodeBytes (vecToLeBytes p.2)))) acc
      = Except.ok (acc ++ l) := by
  induction l generalizing acc with
  | nil => simp [decodeVectorsLoop]
  | cons p l ih =>
    simp only [List.map_cons]
    rw [decodeVectorsLoop]
    simp only [parse_natToChars, b64_roundtrip (vecToLeBytes p.2) (vecToLeBytes_lt p.2)]
    rw [chunks4_vecToLeBytes p.2 (hbits p (List.mem_cons_self p l))]
    rw [mput_fresh _ _ _ (hfresh p (List.mem_cons_self p l))]
    have hnodt : (mkeys l).Nodup := by
      simp only [mkeys, List.map_cons, List.nodup_cons] at hnod
      exact hnod.2
    have hhead : ¬ p.1 ∈ mkeys l := by
      simp only [mkeys, List.map_cons, List.nodup_cons] at hnod
      exact hnod.1
    rw [ih (acc ++ [(p.1, p.2)]) (fun q hq b hb => hbits q (List.mem_cons_of_mem p hq) b hb)
      ?_ hnodt]
    · simp
    · intro q hq
      have h1 : ¬ q.1 ∈ mkeys acc := hfresh q (List.mem_cons_of_mem p hq)
      have h2 : q.1 ≠ p.1 := fun he => hhead (he ▸ List.mem_map_of_mem Prod.fst hq)
      intro hq2
      rw [mkeys_append] at hq2
      rcases List.mem_append.mp hq2 with hA | hB
      · exact h1 hA
      · exact h2 (by simpa [mkeys] using hB)

theorem load_save_spec (c : Collection) (path' : String) (h : storeWF c) :
    load_collection (some (save_collection c)) path' = Except.ok (some
      (Collection.rebuild_from_vectors
        { hnsw := []
          id_map := c.id_map
          reverse_map := c.id_map.foldl (fun acc p => mput p.2 p.1 acc) []
          deleted_ids := c.deleted_ids
          next_id := c.next_id
          dimensions := c.dimensions
          path := path'
          dirty := false
          vectors := c.vectors })) := by
  simp only [load_collection, save_collection]
  rw [foldl_mput_eq_append c.vectors [] (by simp [mkeys]) h.1]
  simp only [List.nil_append]
  rw [decodeVectorsLoop_save c.vectors [] h.2 (by simp [mkeys]) h.1]
  simp [Collection.new]

/-- C1: Round-trip persistence — save_collection followed by load_collection
on the same path returns Some collection whose dimensions, next_id, id_map,
deleted_ids and per-internal-id vectors (bit-for-bit, via the little-endian
byte round trip) equal the saved collection's, hence whose active_count
matches the pre-checkpoint value. -/
theorem C1_round_trip_persistence (c : Collection) (path' : String) (h : storeWF c) :
    ∃ c', load_collection (some (save_collection c)) path' = Except.ok (some c') ∧
      c'.dimensions = c.dimensions ∧ c'.next_id = c.next_id ∧
      c'.id_map = c.id_map ∧ c'.deleted_ids = c.deleted_ids ∧
      c'.vectors = c.vectors ∧ (∀ n, mget n c'.vectors = mget n c.vectors) ∧
      c'.active_count = c.active_count := by
  refine ⟨_, load_save_spec c path' h, ?_⟩
  simp [Collection.rebuild_from_vectors, Collection.active_count]

/-- Witness for C1 at a one-vector collection (the pattern of 1.0f32). -/
theorem C1_round_trip_persistence_witness :
    storeWF ((Collection.new "p" 1).insert_vector "a" [1065353216]) ∧
    (∃ c', load_collection (some (save_collection
        ((Collection.new "p" 1).insert_vector "a" [1065353216]))) "q" = Except.ok (some c') ∧
      c'.dimensions = ((Collection.new "p" 1).insert_vector "a" [1065353216]).dimensions ∧
      c'.next_id = ((Collection.new "p" 1).insert_vector "a" [1065353216]).next_id ∧
      c'.id_map = ((Collection.new "p" 1).insert_vector "a" [1065353216]).id_map ∧
      c'.deleted_ids = ((Collection.new "p" 1).insert_vector "a" [1065353216]).deleted_ids ∧
      c'.vectors = ((Collection.new "p" 1).insert_vector "a" [1065353216]).vectors ∧
      (∀ n, mget n c'.vectors =
        mget n ((Collection.new "p" 1).insert_vector "a" [1065353216]).vectors) ∧
      c'.active_count = ((Collection.new "p" 1).insert_vector "a" [1065353216]).active_count) :=
  ⟨by decide, C1_round_trip_persistence
    ((Collection.new "p" 1).insert_vector "a" [1065353216]) "q" (by decide)⟩

/-! ## Upsert and delete semantics -/

theorem smem_sremove_self (x : String) (s : List String) : smem x (sremove x s) = false := by
  simp [smem, sremove]

theorem insert_vector_id_map (c : Collection) (x : String) (v : List Nat) :
    (c.insert_vector x v).id_map = mput x c.next_id c.id_map := by
  unfold Collection.insert_vector
  cases hm : mget x c.id_map <;> simp [hm]

theorem insert_vector_next_id (c : Collection) (x : String) (v : List Nat) :
    (c.insert_vector x v).next_id = c.next_id + 1 := by
  unfold Collection.insert_vector
  cases hm : mget x c.id_map <;> simp [hm]

/-- C3: Upsert semantics — after insert(x, v1) then insert(x, v2), exactly one
live entry for x remains: id_map maps x to the fresh internal id
c.next_id + 1 with vector v2 and reverse mapping x, x is not tombstoned, and
the previous internal id c.next_id is gone from vectors and reverse_map. -/
theorem C3_upsert_semantics (c : Collection) (x : String) (v1 v2 : List Nat) :
    mget x ((c.insert_vector x v1).insert_vector x v2).id_map = some (c.next_id + 1) ∧
    mget (c.next_id + 1) ((c.insert_vector x v1).insert_vector x v2).vectors = some v2 ∧
    mget (c.next_id + 1) ((c.insert_vector x v1).insert_vector x v2).reverse_map = some x ∧
    smem x ((c.insert_vector x v1).insert_vector x v2).deleted_ids = false ∧
    mget c.next_id ((c.insert_vector x v1).insert_vector x v2).vectors = none ∧
    mget c.next_id ((c.insert_vector x v1).insert_vector x v2).reverse_map = none ∧
    ((c.insert_vector x v1).insert_vector x v2).next_id = c.next_id + 2 := by
  have hm2 : mget x (c.insert_vector x v1).id_map = some c.next_id := by
    rw [insert_vector_id_map]
    exact mget_mput_self x c.next_id c.id_map
  have hn1 : (c.insert_vector x v1).next_id = c.next_id + 1 :=
    insert_vector_next_id c x v1
  have hidm : ((c.insert_vector x v1).insert_vector x v2).id_map =
      mput x (c.next_id + 1) (c.insert_vector x v1).id_map := by
    rw [insert_vector_id_map, hn1]
  have hv : ((c.insert_vector x v1).insert_vector x v2).vectors =
      mput (c.next_id + 1) v2 (mremove c.next_id (c.insert_vector x v1).vectors) := by
    conv_lhs => rw [Collection.insert_vector]
    simp [hm2, hn1]
  have hr : ((c.insert_vector x v1).insert_vector x v2).reverse_map =
      mput (c.next_id + 1) x (mremove c.next_id (c.insert_vector x v1).reverse_map) := by
    conv_lhs => rw [Collection.insert_vector]
    simp [hm2, hn1]
  have hd : ((c.insert_vector x v1).insert_vector x v2).deleted_ids =
      sremove x (sinsert x (c.insert_vector x v1).deleted_ids) := by
    conv_lhs => rw [Collection.insert_vector]
    simp [hm2]
  have hn2 : ((c.insert_vector x v1).insert_vector x v2).next_id = c.next_id + 2 := by
    rw [insert_vector_next_id, hn1]
  refine ⟨?_, ?_, ?_, ?_, ?_, ?_, hn2⟩
  · rw [hidm]; exact mget_mput_self x (c.next_id + 1) _
  · rw [hv]; exact mget_mput_self (c.next_id + 1) v2 _
  · rw [hr]; exact mget_mput_self (c.next_id + 1) x _
  · rw [hd]; exact smem_sremove_self x _
  · rw [hv, mget_mput_ne v2 _ (by omega), mget_mremove_self]
  · rw [hr, mget_mput_ne x _ (by omega), mget_mremove_self]

/-- C5: Delete semantics and atomicity — delete returns true iff the id is a
key of id_map and not tombstoned; on success it only appends the id to the
tombstone set and sets dirty; on failure the collection is unchanged. -/
theorem C5_delete_semantics (c : Collection) (id : String) :
    ((c.delete_vector id).1 = true ↔ id ∈ mkeys c.id_map ∧ ¬ id ∈ c.deleted_ids) ∧
    (c.delete_vector id).2.id_map = c.id_map ∧
    (c.delete_vector id).2.reverse_map = c.reverse_map ∧
    (c.delete_vector id).2.vectors = c.vectors ∧
    (c.delete_vector id).2.hnsw = c.hnsw ∧
    (c.delete_vector id).2.next_id = c.next_id ∧
    (c.delete_vector id).2.dimensions = c.dimensions ∧
    (c.delete_vector id).2.path = c.path ∧
    (c.delete_vector id).2.deleted_ids =
      (if (c.delete_vector id).1 then c.deleted_ids ++ [id] else c.deleted_ids) ∧
    (c.delete_vector id).2.dirty = ((c.delete_vector id).1 || c.dirty) ∧
    ((c.delete_vector id).1 = true ∨ (c.delete_vector id).2 = c) := by
  by_cases h : (mcontains id c.id_map = true ∧ ¬ smem id c.deleted_ids = true)
  · have hmem : id ∈ mkeys c.id_map := (mget_isSome_iff_mem_keys id c.id_map).mp h.1
    have hnd : ¬ id ∈ c.deleted_ids := fun hx => h.2 ((smem_iff id c.deleted_ids).mpr hx)
    simp only [Collection.delete_vector, if_pos h]
    simp [hmem, hnd, sinsert_of_not_mem hnd]
  · have hfalse : ¬ (id ∈ mkeys c.id_map ∧ ¬ id ∈ c.deleted_ids) := by
      intro hx
      apply h
      refine ⟨(mget_isSome_iff_mem_keys id c.id_map).mpr hx.1, ?_⟩
      intro hs
      exact hx.2 ((smem_iff id c.deleted_ids).mp hs)
    simp only [Collection.delete_vector, if_neg h]
    refine ⟨⟨fun hc => absurd hc Bool.false_ne_true, fun hx => absurd hx hfalse⟩, ?_⟩
    simp

/-! ## The id-allocator invariant -/

/-- next_id strictly dominates every internal id in id_map, reverse_map and
the vector store. -/
abbrev allocInv (c : Collection) : Prop :=
  (∀ p ∈ c.id_map, p.2 < c.next_id) ∧
  (∀ p ∈ c.reverse_map, p.1 < c.next_id) ∧
  (∀ p ∈ c.vectors, p.1 < c.next_id)

theorem mem_of_mem_mremove {α β : Type} [DecidableEq α] {k : α} {p : α × β}
    {l : List (α × β)} (h : p ∈ mremove k l) : p ∈ l :=
  List.mem_of_mem_filter h

theorem allocInv_new (path : String) (dims : Nat) : allocInv (Collection.new path dims) := by
  refine ⟨?_, ?_, ?_⟩ <;> intro p hp <;> simp [Collection.new] at hp

theorem allocInv_insert (c : Collection) (id : String) (v : List Nat) (h : allocInv c) :
    allocInv (c.insert_vector id v) := by
  obtain ⟨h1, h2, h3⟩ := h
  cases hm : mget id c.id_map with
  | none =>
    simp only [Collection.insert_vector, hm]
    refine ⟨?_, ?_, ?_⟩ <;> intro p hp
    · rcases mem_mput hp with he | hp2
      · subst he; exact Nat.lt_succ_self c.next_id
      · exact Nat.lt_succ_of_lt (h1 p hp2)
    · rcases mem_mput hp with he | hp2
      · subst he; exact Nat.lt_succ_self c.next_id
      · exact Nat.lt_succ_of_lt (h2 p hp2)
    · rcases mem_mput hp with he | hp2
      · subst he; exact Nat.lt_succ_self c.next_id
      · exact Nat.lt_succ_of_lt (h3 p hp2)
  | some old =>
    simp only [Collection.insert_vector, hm]
    refine ⟨?_, ?_, ?_⟩ <;> intro p hp
    · rcases mem_mput hp with he | hp2
      · subst he; exact Nat.lt_succ_self c.next_id
      · exact Nat.lt_succ_of_lt (h1 p hp2)
    · rcases mem_mput hp with he | hp2
      · subst he; exact Nat.lt_succ_self c.next_id
      · exact Nat.lt_succ_of_lt (h2 p (mem_of_mem_mremove hp2))
    · rcases mem_mput hp with he | hp2
      · subst he; exact Nat.lt_succ_self c.next_id
      · exact Nat.lt_succ_of_lt (h3 p (mem_of_mem_mremove hp2))

theorem allocInv_delete (c : Collection) (id : String) (h : allocInv c) :
    allocInv (c.delete_vector id).2 ∧ (c.delete_vector id).2.next_id = c.next_id := by
  unfold Collection.delete_vector
  split
  · exact ⟨⟨h.1, h.2.1, h.2.2⟩, by trivial⟩
  · exact ⟨⟨h.1, h.2.1, h.2.2⟩, by trivial⟩

theorem removeDeletedStep_fields (c : Collection) (u : String) :
    (removeDeletedStep c u).next_id = c.next_id ∧
    (∀ p ∈ (removeDeletedStep c u).id_map, p ∈ c.id_map) ∧
    (∀ p ∈ (removeDeletedStep c u).reverse_map, p ∈ c.reverse_map) ∧
    (∀ p ∈ (removeDeletedStep c u).vectors, p ∈ c.vectors) := by
  cases hm : mget u c.id_map with
  | none =>
    simp only [removeDeletedStep, hm]
    exact ⟨by trivial, fun p hp => mem_of_mem_mremove hp, fun p hp => hp, fun p hp => hp⟩
  | some n =>
    simp only [removeDeletedStep, hm]
    exact ⟨by trivial, fun p hp => mem_of_mem_mremove hp,
      fun p hp => mem_of_mem_mremove hp, fun p hp => mem_of_mem_mremove hp⟩

theorem foldl_removeDeletedStep_inv (l : List String) (c : Collection) (h : allocInv c) :
    allocInv (l.foldl removeDeletedStep c) ∧ (l.foldl removeDeletedStep c).next_id = c.next_id := by
  induction l generalizing c with
  | nil => exact ⟨h, rfl⟩
  | cons u l ih =>
    obtain ⟨hn, hi, hr, hv⟩ := removeDeletedStep_fields c u
    have hstep : allocInv (removeDeletedStep c u) := by
      refine ⟨?_, ?_, ?_⟩ <;> intro p hp <;> rw [hn]
      · exact h.1 p (hi p hp)
      · exact h.2.1 p (hr p hp)
      · exact h.2.2 p (hv p hp)
    obtain ⟨ha, hb⟩ := ih (removeDeletedStep c u) hstep
    refine ⟨ha, ?_⟩
    rw [List.foldl_cons, hb, hn]

theorem foldl_removeDeletedStep_id_map (l : List String) (c : Collection) (x : String)
    (hx : ¬ x ∈ l) : mget x (l.foldl removeDeletedStep c).id_map = mget x c.id_map := by
  induction l generalizing c with
  | nil => rfl
  | cons u l ih =>
    have hxu : u ≠ x := fun he => hx (he ▸ List.mem_cons_self u l)
    have hxl : ¬ x ∈ l := fun he => hx (List.mem_cons_of_mem u he)
    rw [List.foldl_cons, ih _ hxl]
    cases hm : mget u c.id_map <;> simp only [removeDeletedStep, hm] <;>
      exact mget_mremove_ne c.id_map hxu

theorem allocInv_build_index (c : Collection) (h : allocInv c) :
    allocInv (build_index_collection c).1 ∧
    (build_index_collection c).1.next_id = c.next_id ∧
    (∀ x, ¬ x ∈ c.deleted_ids →
      mget x (build_index_collection c).1.id_map = mget x c.id_map) := by
  unfold build_index_collection
  by_cases hd : c.deleted_ids.isEmpty
  · simp only [hd, if_true]
    exact ⟨⟨h.1, h.2.1, h.2.2⟩, by trivial, fun x _ => by trivial⟩
  · simp only [hd, if_false]
    obtain ⟨ha, hb⟩ := foldl_removeDeletedStep_inv c.deleted_ids c h
    refine ⟨⟨?_, ?_, ?_⟩, ?_, ?_⟩
    · intro p hp
      simp only [Collection.rebuild_from_vectors] at hp
      exact hb ▸ ha.1 p hp
    · intro p hp
      simp only [Collection.rebuild_from_vectors] at hp
      exact hb ▸ ha.2.1 p hp
    · intro p hp
      simp only [Collection.rebuild_from_vectors] at hp
      exact hb ▸ ha.2.2 p hp
    · simp only [Collection.rebuild_from_vectors]
      exact hb
    · intro x hx
      simp only [Collection.rebuild_from_vectors]
      exact foldl_removeDeletedStep_id_map c.deleted_ids c x hx

theorem mem_foldl_mput_swap (l : List (String × Nat)) (acc : List (Nat × String))
    (q : Nat × String) (h : q ∈ l.foldl (fun acc p => mput p.2 p.1 acc) acc) :
    q ∈ acc ∨ ∃ p ∈ l, q = (p.2, p.1) := by
  induction l generalizing acc with
  | nil => exact Or.inl h
  | cons p l ih =>
    rw [List.foldl_cons] at h
    rcases ih (mput p.2 p.1 acc) h with h2 | h2
    · rcases mem_mput h2 with he | h3
      · exact Or.inr ⟨p, List.mem_cons_self p l, he⟩
      · exact Or.inl h3
    · obtain ⟨r, hr, he⟩ := h2
      exact Or.inr ⟨r, List.mem_cons_of_mem p hr, he⟩

/-- C7: Id-allocator invariant — next_id strictly dominates every internal id
in id_map, reverse_map and the vector store; it is established by a fresh
collection, preserved by insert (which hands out next_id and increments it),
by delete, and by checkpoint (which neither renumbers surviving ids nor
changes next_id), and survives a save/load round trip (which restores the
persisted next_id). -/
theorem C7_id_allocator_invariant :
    (∀ path dims, allocInv (Collection.new path dims)) ∧
    (∀ c id v, allocInv c →
      allocInv (c.insert_vector id v) ∧
      mget id (c.insert_vector id v).id_map = some c.next_id ∧
      (c.insert_vector id v).next_id = c.next_id + 1) ∧
    (∀ c id, allocInv c →
      allocInv (c.delete_vector id).2 ∧ (c.delete_vector id).2.next_id = c.next_id) ∧
    (∀ c, allocInv c →
      allocInv (build_index_collection c).1 ∧
      (build_index_collection c).1.next_id = c.next_id ∧
      (∀ x, ¬ x ∈ c.deleted_ids →
        mget x (build_index_collection c).1.id_map = mget x c.id_map)) ∧
    (∀ c path' c', storeWF c → allocInv c →
      load_collection (some (save_collection c)) path' = Except.ok (some c') →
      allocInv c' ∧ c'.next_id = c.next_id) := by
  refine ⟨allocInv_new, ?_, allocInv_delete, allocInv_build_index, ?_⟩
  · intro c id v h
    refine ⟨allocInv_insert c id v h, ?_, insert_vector_next_id c id v⟩
    rw [insert_vector_id_map]
    exact mget_mput_self id c.next_id c.id_map
  · intro c path' c' hwf h hload
    rw [load_save_spec c path' hwf] at hload
    have hc' : c' = Collection.rebuild_from_vectors
        { hnsw := []
          id_map := c.id_map
          reverse_map := c.id_map.foldl (fun acc p => mput p.2 p.1 acc) []
          deleted_ids := c.deleted_ids
          next_id := c.next_id
          dimensions := c.dimensions
          path := path'
          dirty := false
          vectors := c.vectors } := by
      have := Except.ok.inj hload
      exact (Option.some_injective Collection this).symm
    subst hc'
    refine ⟨⟨?_, ?_, ?_⟩, rfl⟩
    · intro p hp
      simp only [Collection.rebuild_from_vectors] at hp
      exact h.1 p hp
    · intro p hp
      simp only [Collection.rebuild_from_vectors] at hp
      rcases mem_foldl_mput_swap c.id_map [] p hp with h2 | h2
      · simp at h2
      · obtain ⟨q, hq, he⟩ := h2
        subst he
        exact h.1 q hq
    · intro p hp
      simp only [Collection.rebuild_from_vectors] at hp
      exact h.2.2 p hp

/-- Witness for C7 at a fresh one-dimensional collection. -/
theorem C7_id_allocator_invariant_witness :
    allocInv (Collection.new "p" 1) ∧
    (allocInv ((Collection.new "p" 1).insert_vector "a" [0]) ∧
      mget "a" ((Collection.new "p" 1).insert_vector "a" [0]).id_map =
        some (Collection.new "p" 1).next_id ∧
      ((Collection.new "p" 1).insert_vector "a" [0]).next_id =
        (Collection.new "p" 1).next_id + 1) :=
  ⟨C7_id_allocator_invariant.1 "p" 1,
    C7_id_allocator_invariant.2.1 (Collection.new "p" 1) "a" [0] (by decide)⟩

/-! ## Rebuild insertion order -/

/-- The internal ids inserted into the HNSW graph, in insertion order. -/
def hnswInsertionIds (c : Collection) : List Nat := c.hnsw.map Prod.snd

/-- A perfectly parsable snapshot whose vectors map iterates key 1 before
key 0 (JSON object order, and HashMap iteration order, are arbitrary). -/
def swappedMeta : Metadata :=
  { dimensions := 1
    next_id := 2
    id_map := [("a", 0), ("b", 1)]
    deleted_ids := []
    vectors := [(natToChars 1, b64EncodeBytes (vecToLeBytes [0])),
                (natToChars 0, b64EncodeBytes (vecToLeBytes [0]))] }

/-- The graph-insertion order performed while loading a snapshot at path p. -/
def loadedInsertionIds (onDisk : Option Metadata) : Option (List Nat) :=
  match load_collection onDisk "p" with
  | Except.ok (some c) => some (hnswInsertionIds c)
  | _ => none

/-- C2 counterexample: loading swappedMeta rebuilds the graph by inserting
internal id 1 before internal id 0 — not ascending internal-id order. -/
theorem C2_counterexample_not_ascending :
    loadedInsertionIds (some swappedMeta) = some [1, 0] ∧
    ¬ List.Sorted (fun a b : Nat => a ≤ b) [1, 0] := by
  constructor
  · decide
  · intro hs
    have := List.rel_of_sorted_cons hs 0 (by simp)
    omega

theorem mget_eq_some_iff_mem {α β : Type} [DecidableEq α] {l : List (α × β)}
    (h : (mkeys l).Nodup) (k : α) (v : β) : mget k l = some v ↔ (k, v) ∈ l := by
  constructor
  · exact mem_of_mget_eq_some
  · intro hm
    induction l with
    | nil => simp at hm
    | cons p rest ih =>
      obtain ⟨k', v'⟩ := p
      simp only [mkeys, List.map_cons, List.nodup_cons] at h
      rcases List.mem_cons.mp hm with he | hrest
      · rw [Prod.mk.injEq] at he
        rw [mget, if_pos he.1.symm, he.2]
      · have hk : k' ≠ k := by
          intro he
          subst he
          exact h.1 (List.mem_map_of_mem Prod.fst hrest)
        rw [mget, if_neg hk]
        exact ih h.2 hrest

/-- C2 amended: whenever the graph is reconstructed (rebuild_from_vectors,
used both on snapshot load and on checkpoint compaction), the ids inserted
are exactly the stored internal ids that have a reverse mapping whose
external id is not tombstoned, each exactly once, following the vector
store's iteration order — not necessarily ascending. -/
theorem C2_rebuild_inserts_live_vectors (c : Collection) (h : (mkeys c.vectors).Nodup) :
    (hnswInsertionIds c.rebuild_from_vectors).Sublist (mkeys c.vectors) ∧
    (hnswInsertionIds c.rebuild_from_vectors).Nodup ∧
    (∀ n, n ∈ hnswInsertionIds c.rebuild_from_vectors ↔
      ∃ v, mget n c.vectors = some v ∧
        ∃ u, mget n c.reverse_map = some u ∧ ¬ u ∈ c.deleted_ids) := by
  have hrew : hnswInsertionIds c.rebuild_from_vectors =
      (c.vectors.filter (fun p =>
        match mget p.1 c.reverse_map with
        | some uuid => ¬ (smem uuid c.deleted_ids)
        | none => false)).map Prod.fst := by
    simp [hnswInsertionIds, Collection.rebuild_from_vectors, List.map_map, Function.comp]
  have hsub : (hnswInsertionIds c.rebuild_from_vectors).Sublist (mkeys c.vectors) := by
    rw [hrew]
    exact (List.filter_sublist c.vectors).map Prod.fst
  refine ⟨hsub, hsub.nodup h, ?_⟩
  intro n
  rw [hrew]
  constructor
  · intro hn
    obtain ⟨p, hp, he⟩ := List.mem_map.mp hn
    obtain ⟨hmem, hP⟩ := List.mem_filter.mp hp
    obtain ⟨pk, pv⟩ := p
    subst he
    refine ⟨pv, (mget_eq_some_iff_mem h pk pv).mpr hmem, ?_⟩
    cases hr : mget pk c.reverse_map with
    | none => rw [hr] at hP; simp at hP
    | some u =>
      rw [hr] at hP
      simp only [decide_eq_true_eq, smem_iff] at hP
      exact ⟨u, rfl, hP⟩
  · intro ⟨v, hv, u, hu, hnd⟩
    apply List.mem_map.mpr
    refine ⟨(n, v), List.mem_filter.mpr ⟨(mget_eq_some_iff_mem h n v).mp hv, ?_⟩, rfl⟩
    rw [hu]
    simp only [decide_eq_true_eq, smem_iff]
    exact hnd

/-- Witness for the amended C2 at a concrete two-vector store with one
tombstone. -/
theorem C2_rebuild_inserts_live_vectors_witness :
    (mkeys ({ (Collection.new "p" 1).insert_vector "a" [0] with
        deleted_ids := ["a"] } : Collection).vectors).Nodup ∧
    ((hnswInsertionIds ({ (Collection.new "p" 1).insert_vector "a" [0] with
        deleted_ids := ["a"] } : Collection).rebuild_from_vectors).Sublist
      (mkeys ({ (Collection.new "p" 1).insert_vector "a" [0] with
        deleted_ids := ["a"] } : Collection).vectors) ∧
     (hnswInsertionIds ({ (Collection.new "p" 1).insert_vector "a" [0] with
        deleted_ids := ["a"] } : Collection).rebuild_from_vectors).Nodup ∧
     (∀ n, n ∈ hnswInsertionIds ({ (Collection.new "p" 1).insert_vector "a" [0] with
        deleted_ids := ["a"] } : Collection).rebuild_from_vectors ↔
       ∃ v, mget n ({ (Collection.new "p" 1).insert_vector "a" [0] with
          deleted_ids := ["a"] } : Collection).vectors = some v ∧
         ∃ u, mget n ({ (Collection.new "p" 1).insert_vector "a" [0] with
            deleted_ids := ["a"] } : Collection).reverse_map = some u ∧
           ¬ u ∈ ({ (Collection.new "p" 1).insert_vector "a" [0] with
              deleted_ids := ["a"] } : Collection).deleted_ids)) :=
  ⟨by decide, C2_rebuild_inserts_live_vectors
    ({ (Collection.new "p" 1).insert_vector "a" [0] with deleted_ids := ["a"] } : Collection)
    (by decide)⟩

/-! ## Search contract -/

theorem searchAccum_length (c : Collection) (k : Nat) :
    ∀ (res : List Neighbour) (out : List (String × ℚ)), out.length ≤ k →
      (Collection.searchAccum c k res out).length ≤ k := by
  intro res
  induction res with
  | nil => intro out h; exact h
  | cons nb rest ih =>
    intro out h
    rw [Collection.searchAccum]
    by_cases hk : k ≤ out.length
    · simpa [hk] using h
    · simp only [if_neg hk]
      cases hr : mget nb.d_id c.reverse_map with
      | none => exact ih out h
      | some uuid =>
        by_cases hd : smem uuid c.deleted_ids
        · simp only [hd, if_true]
          exact ih out h
        · simp only [hd, if_false]
          exact ih _ (by simp; omega)

theorem searchAccum_mem (c : Collection) (k : Nat) :
    ∀ (res : List Neighbour) (out r : _), r ∈ Collection.searchAccum c k res out →
      r ∈ out ∨ ∃ nb ∈ res, mget nb.d_id c.reverse_map = some r.1 ∧
        smem r.1 c.deleted_ids = false ∧ r.2 = 1 - nb.distance := by
  intro res
  induction res with
  | nil => intro out r h; exact Or.inl h
  | cons nb rest ih =>
    intro out r h
    rw [Collection.searchAccum] at h
    by_cases hk : k ≤ out.length
    · rw [if_pos hk] at h; exact Or.inl h
    · rw [if_neg hk] at h
      cases hr : mget nb.d_id c.reverse_map with
      | none =>
        rw [hr] at h
        rcases ih out r h with h2 | ⟨nb', hnb', hrest⟩
        · exact Or.inl h2
        · exact Or.inr ⟨nb', List.mem_cons_of_mem nb hnb', hrest⟩
      | some uuid =>
        rw [hr] at h
        by_cases hd : smem uuid c.deleted_ids
        · simp only [hd, if_true] at h
          rcases ih out r h with h2 | ⟨nb', hnb', hrest⟩
          · exact Or.inl h2
          · exact Or.inr ⟨nb', List.mem_cons_of_mem nb hnb', hrest⟩
        · simp only [hd, if_false] at h
          rcases ih _ r h with h2 | ⟨nb', hnb', hrest⟩
          · rcases List.mem_append.mp h2 with h3 | h3
            · exact Or.inl h3
            · simp only [List.mem_singleton] at h3
              subst h3
              refine Or.inr ⟨nb, List.mem_cons_self nb rest, hr, ?_, rfl⟩
              simpa using hd
          · exact Or.inr ⟨nb', List.mem_cons_of_mem nb hnb', hrest⟩

theorem searchAccum_sorted (c : Collection) (k : Nat) :
    ∀ (res : List Neighbour) (out : List (String × ℚ)),
      List.Pairwise (fun a b : Neighbour => a.distance ≤ b.distance) res →
      List.Pairwise (fun a b : String × ℚ => b.2 ≤ a.2) out →
      (∀ o ∈ out, ∀ nb ∈ res, 1 - nb.distance ≤ o.2) →
      List.Pairwise (fun a b : String × ℚ => b.2 ≤ a.2)
        (Collection.searchAccum c k res out) := by
  intro res
  induction res with
  | nil => intro out _ hout _; exact hout
  | cons nb rest ih =>
    intro out hres hout hinv
    have hresT : List.Pairwise (fun a b : Neighbour => a.distance ≤ b.distance) rest :=
      (List.pairwise_cons.mp hres).2
    have hhead : ∀ nb' ∈ rest, nb.distance ≤ nb'.distance :=
      (List.pairwise_cons.mp hres).1
    rw [Collection.searchAccum]
    by_cases hk : k ≤ out.length
    · rw [if_pos hk]; exact hout
    · rw [if_neg hk]
      cases hr : mget nb.d_id c.reverse_map with
      | none =>
        exact ih out hresT hout
          (fun o ho nb' hnb' => hinv o ho nb' (List.mem_cons_of_mem nb hnb'))
      | some uuid =>
        by_cases hd : smem uuid c.deleted_ids
        · simp only [hd, if_true]
          exact ih out hresT hout
            (fun o ho nb' hnb' => hinv o ho nb' (List.mem_cons_of_mem nb hnb'))
        · simp only [hd, if_false]
          apply ih _ hresT
          · rw [List.pairwise_append]
            refine ⟨hout, List.pairwise_singleton _ _, ?_⟩
            intro a ha b hb
            simp only [List.mem_singleton] at hb
            subst hb
            exact hinv a ha nb (List.mem_cons_self nb rest)
          · intro o ho nb' hnb'
            rcases List.mem_append.mp ho with h3 | h3
            · exact hinv o h3 nb' (List.mem_cons_of_mem nb hnb')
            · simp only [List.mem_singleton] at h3
              subst h3
              have := hhead nb' hnb'
              simp only []
              linarith

/-- C4: Search output contract — for a registered collection and a query of
the right length, search returns empty when active_count is 0; otherwise it
returns at most k results, none tombstoned, each scored 1 minus the distance
the index reported, in descending score order (given the index returns its
neighbours in ascending distance order, its documented contract). -/
theorem C4_search_contract (collections : Registry) (path : String) (coll : Collection)
    (query : List Nat) (k : Nat) (results : List Neighbour)
    (hcoll : mget path collections = some coll)
    (hq : query.length = coll.dimensions)
    (hsorted : List.Pairwise (fun a b : Neighbour => a.distance ≤ b.distance) results) :
    ∃ out, search_f collections path query k results = Except.ok out ∧
      (coll.active_count = 0 → out = []) ∧
      out.length ≤ k ∧
      (∀ r ∈ out, smem r.1 coll.deleted_ids = false ∧
        ∃ nb ∈ results, mget nb.d_id coll.reverse_map = some r.1 ∧ r.2 = 1 - nb.distance) ∧
      List.Pairwise (fun a b : String × ℚ => b.2 ≤ a.2) out := by
  unfold search_f
  simp only [hcoll]
  have hqd : ¬ (query.length ≠ coll.dimensions) := by simp [hq]
  rw [if_neg hqd]
  by_cases hac : coll.active_count = 0
  · rw [if_pos hac]
    exact ⟨[], rfl, fun _ => rfl, by simp, by simp, by simp⟩
  · rw [if_neg hac]
    refine ⟨_, rfl, fun h => absurd h hac, ?_, ?_, ?_⟩
    · exact searchAccum_length coll k results [] (by simp)
    · intro r hr
      rcases searchAccum_mem coll k results [] r hr with h2 | ⟨nb, hnb, hmg, hsm, he⟩
      · simp at h2
      · exact ⟨hsm, nb, hnb, hmg, he⟩
    · exact searchAccum_sorted coll k results [] hsorted (by simp) (by simp)

/-- Witness for C4 at a one-entry registry and a single reported neighbour. -/
theorem C4_search_contract_witness :
    mget "p" [("p", (Collection.new "p" 1).insert_vector "a" [0])] =
      some ((Collection.new "p" 1).insert_vector "a" [0]) ∧
    [(0 : Nat)].length = ((Collection.new "p" 1).insert_vector "a" [0]).dimensions ∧
    List.Pairwise (fun a b : Neighbour => a.distance ≤ b.distance) [Neighbour.mk 0 0] ∧
    (∃ out, search_f [("p", (Collection.new "p" 1).insert_vector "a" [0])] "p" [0] 1
        [Neighbour.mk 0 0] = Except.ok out ∧
      (((Collection.new "p" 1).insert_vector "a" [0]).active_count = 0 → out = []) ∧
      out.length ≤ 1 ∧
      (∀ r ∈ out, smem r.1 ((Collection.new "p" 1).insert_vector "a" [0]).deleted_ids = false ∧
        ∃ nb ∈ [Neighbour.mk 0 0],
          mget nb.d_id ((Collection.new "p" 1).insert_vector "a" [0]).reverse_map = some r.1 ∧
          r.2 = 1 - nb.distance) ∧
      List.Pairwise (fun a b : String × ℚ => b.2 ≤ a.2) out) :=
  ⟨by decide, by decide, by simp,
    C4_search_contract [("p", (Collection.new "p" 1).insert_vector "a" [0])] "p"
      ((Collection.new "p" 1).insert_vector "a" [0]) [0] 1 [Neighbour.mk 0 0]
      (by decide) (by decide) (by simp)⟩

/-! ## Snapshot payload-length validation -/

/-- A snapshot whose only payload decodes to 3 bytes although dimensions = 2,
so the decoded length is not 4 * dimensions. -/
def shortPayloadMeta : Metadata :=
  { dimensions := 2
    next_id := 1
    id_map := [("a", 0)]
    deleted_ids := []
    vectors := [(natToChars 0, b64EncodeBytes [7, 7, 7])] }

/-- Whether load_collection opens a collection from the given snapshot. -/
def loadOpens (onDisk : Option Metadata) : Bool :=
  match load_collection onDisk "p" with
  | Except.ok (some _) => true
  | _ => false

/-- C6 counterexample: a payload of 3 decoded bytes, not 4 * dimensions = 8,
is accepted — the collection opens without error (the vector is silently
truncated by chunks_exact). -/
theorem C6_counterexample_accepts_bad_length :
    (b64DecodeBytes (b64EncodeBytes [7, 7, 7])).map List.length = some 3 ∧
    3 ≠ 4 * shortPayloadMeta.dimensions ∧
    loadOpens (some shortPayloadMeta) = true := by decide

theorem decodeVectorsLoop_ok (l : List (List Char × List Char))
    (h : ∀ p ∈ l, (parseUsize p.1).isSome ∧ (b64DecodeBytes p.2).isSome) :
    ∀ acc, ∃ r, decodeVectorsLoop l acc = Except.ok r := by
  induction l with
  | nil => intro acc; exact ⟨acc, rfl⟩
  | cons p l ih =>
    intro acc
    obtain ⟨n, hn⟩ := Option.isSome_iff_exists.mp (h p (List.mem_cons_self p l)).1
    obtain ⟨bs, hb⟩ := Option.isSome_iff_exists.mp (h p (List.mem_cons_self p l)).2
    obtain ⟨pk, pv⟩ := p
    rw [decodeVectorsLoop]
    simp only at hn hb
    rw [hn, hb]
    exact ih (fun q hq => h q (List.mem_cons_of_mem _ hq)) (mput n (chunks4 bs) acc)

/-- C6 amended: load_collection performs no payload-length validation — any
metadata whose internal-id keys parse and whose base64 payloads decode is
loaded successfully, whatever the decoded byte lengths. -/
theorem C6_no_length_validation (m : Metadata) (path' : String)
    (h : ∀ p ∈ m.vectors, (parseUsize p.1).isSome ∧ (b64DecodeBytes p.2).isSome) :
    ∃ c, load_collection (some m) path' = Except.ok (some c) := by
  obtain ⟨r, hr⟩ := decodeVectorsLoop_ok m.vectors h []
  simp only [load_collection]
  rw [hr]
  exact ⟨_, rfl⟩

/-- Witness for the amended C6 at the short-payload snapshot itself. -/
theorem C6_no_length_validation_witness :
    (∀ p ∈ shortPayloadMeta.vectors, (parseUsize p.1).isSome ∧ (b64DecodeBytes p.2).isSome) ∧
    (∃ c, load_collection (some shortPayloadMeta) "p" = Except.ok (some c)) :=
  ⟨by decide, C6_no_length_validation shortPayloadMeta "p" (by decide)⟩

instance {e a : Type} [DecidableEq e] [DecidableEq a] : DecidableEq (Except e a) := fun x y =>
  match x, y with
  | Except.error e1, Except.error e2 =>
    match decEq e1 e2 with
    | isTrue h => isTrue (h ▸ rfl)
    | isFalse h => isFalse (fun hh => h (Except.error.inj hh))
  | Except.ok a1, Except.ok a2 =>
    match decEq a1 a2 with
    | isTrue h => isTrue (h ▸ rfl)
    | isFalse h => isFalse (fun hh => h (Except.ok.inj hh))
  | Except.error _, Except.ok _ => isFalse (fun hh => Except.noConfusion hh)
  | Except.ok _, Except.error _ => isFalse (fun hh => Except.noConfusion hh)

/-! ## Non-finite component handling on insert -/

/-- Finiteness of an f32 bit pattern: the exponent field (bits 23..30) is not
all-ones (all-ones encodes infinities and NaNs). -/
def isFiniteF32 (bits : Nat) : Bool := bits / 8388608 % 256 ≠ 255

/-- C8 counterexample: the quiet-NaN pattern 0x7FC00000 is accepted by the
façade insert into a 1-dimensional collection, which modifies the collection
and stores the pattern verbatim. -/
theorem C8_counterexample_nan_accepted :
    isFiniteF32 2143289344 = false ∧
    insert_vector_f [("p", Collection.new "p" 1)] "p" "a" [2143289344] =
      Except.ok [("p", (Collection.new "p" 1).insert_vector "a" [2143289344])] ∧
    mget "a" ((Collection.new "p" 1).insert_vector "a" [2143289344]).id_map = some 0 ∧
    mget 0 ((Collection.new "p" 1).insert_vector "a" [2143289344]).vectors =
      some [2143289344] := by decide

/-- C8 amended: the façade insert validates only the vector's length; any
component bit patterns, finite or not, are accepted, the operation succeeds
and the vector is stored verbatim under the fresh internal id. -/
theorem C8_insert_checks_only_length (collections : Registry) (path id : String)
    (coll : Collection) (v : List Nat)
    (hcoll : mget path collections = some coll)
    (hlen : v.length = coll.dimensions) :
    insert_vector_f collections path id v =
      Except.ok (mput path (coll.insert_vector id v) collections) ∧
    mget coll.next_id (coll.insert_vector id v).vectors = some v := by
  constructor
  · unfold insert_vector_f
    simp only [hcoll]
    rw [if_neg (by simp [hlen])]
  · cases hm : mget id coll.id_map with
    | none =>
      rw [show (coll.insert_vector id v).vectors = mput coll.next_id v coll.vectors from by
        simp [Collection.insert_vector, hm]]
      exact mget_mput_self _ _ _
    | some old =>
      rw [show (coll.insert_vector id v).vectors =
          mput coll.next_id v (mremove old coll.vectors) from by
        simp [Collection.insert_vector, hm]]
      exact mget_mput_self _ _ _

/-- Witness for the amended C8 at the NaN pattern. -/
theorem C8_insert_checks_only_length_witness :
    mget "p" [("p", Collection.new "p" 1)] = some (Collection.new "p" 1) ∧
    [(2143289344 : Nat)].length = (Collection.new "p" 1).dimensions ∧
    (insert_vector_f [("p", Collection.new "p" 1)] "p" "a" [2143289344] =
        Except.ok (mput "p" ((Collection.new "p" 1).insert_vector "a" [2143289344])
          [("p", Collection.new "p" 1)]) ∧
      mget (Collection.new "p" 1).next_id
        ((Collection.new "p" 1).insert_vector "a" [2143289344]).vectors =
        some [2143289344]) :=
  ⟨by decide, by decide, C8_insert_checks_only_length [("p", Collection.new "p" 1)] "p" "a"
    (Collection.new "p" 1) [2143289344] (by decide) (by decide)⟩

/-! ## Open idempotence -/

/-- A config for path p that is invalid: euclidean metric. -/
def euclideanConfig : CollectionConfig :=
  { path := "p"
    dimensions := 3
    index_type := "hnsw"
    metric := "euclidean" }

/-- A well-formed cosine/hnsw config for path p. -/
def cosineConfig : CollectionConfig :=
  { path := "p"
    dimensions := 3
    index_type := "hnsw"
    metric := "cosine" }

/-- C9 counterexample: opening an already-registered path with an invalid
metric is rejected with an error, although the path is present — config
validation runs before the idempotence check. -/
theorem C9_counterexample_invalid_metric :
    mcontains "p" [("p", Collection.new "p" 3)] = true ∧
    create_collection euclideanConfig [("p", Collection.new "p" 3)] none =
      Except.error "Unsupported metric. Only cosine is supported." := by decide

/-- C9 amended: for a well-formed config (cosine metric, hnsw index, nonzero
dimensions) whose path is already registered, create_collection returns
success and leaves the registry — hence the existing collection — unchanged,
whatever is on disk. -/
theorem C9_open_idempotent (config : CollectionConfig) (collections : Registry)
    (onDisk : Option Metadata)
    (hm : config.metric = "cosine") (hi : config.index_type = "hnsw")
    (hd : config.dimensions ≠ 0) (hp : mcontains config.path collections = true) :
    create_collection config collections onDisk = Except.ok collections := by
  unfold create_collection
  rw [if_neg (by simp [hm]), if_neg (by simp [hi]), if_neg hd, if_pos hp]

/-- Witness for the amended C9 at a one-entry registry. -/
theorem C9_open_idempotent_witness :
    cosineConfig.metric = "cosine" ∧
    cosineConfig.index_type = "hnsw" ∧
    cosineConfig.dimensions ≠ 0 ∧
    mcontains cosineConfig.path [("p", Collection.new "p" 3)] = true ∧
    create_collection cosineConfig [("p", Collection.new "p" 3)] none =
      Except.ok [("p", Collection.new "p" 3)] :=
  ⟨rfl, rfl, by decide, by decide,
    C9_open_idempotent cosineConfig [("p", Collection.new "p" 3)] none
      rfl rfl (by decide) (by decide)⟩

/-! ## active_count underflow -/

theorem mem_mkeys_mput {α β : Type} [DecidableEq α] {x k : α} (v : β) (l : List (α × β))
    (h : x ∈ mkeys l) : x ∈ mkeys (mput k v l) := by
  rw [mkeys_mput]
  split
  · exact h
  · exact List.mem_append_left _ h

theorem foldl_removeDeletedStep_keys_nodup (l : List String) (c : Collection)
    (h : (mkeys c.id_map).Nodup) :
    (mkeys (l.foldl removeDeletedStep c).id_map).Nodup := by
  induction l generalizing c with
  | nil => exact h
  | cons u l ih =>
    rw [List.foldl_cons]
    apply ih
    cases hm : mget u c.id_map with
    | none => simpa [removeDeletedStep, hm] using mkeys_nodup_mremove u c.id_map h
    | some n => simpa [removeDeletedStep, hm] using mkeys_nodup_mremove u c.id_map h

/-- Every façade-reachable collection keeps its tombstones inside id_map,
with duplicate-free tombstones and id_map keys. -/
theorem reachable_tombstone_inv (c : Collection) (h : Reachable c) :
    (∀ x ∈ c.deleted_ids, x ∈ mkeys c.id_map) ∧
    c.deleted_ids.Nodup ∧ (mkeys c.id_map).Nodup := by
  induction h with
  | new path dims => simp [Collection.new, mkeys]
  | insert c id v hc ih =>
    obtain ⟨hsub, hnd, hnk⟩ := ih
    cases hm : mget id c.id_map with
    | none =>
      simp only [Collection.insert_vector, hm]
      refine ⟨?_, sremove_nodup hnd, mkeys_nodup_mput id c.next_id c.id_map hnk⟩
      intro x hx
      obtain ⟨hx1, _⟩ := mem_sremove hx
      exact mem_mkeys_mput c.next_id c.id_map (hsub x hx1)
    | some old =>
      simp only [Collection.insert_vector, hm]
      refine ⟨?_, sremove_nodup (sinsert_nodup hnd),
        mkeys_nodup_mput id c.next_id c.id_map hnk⟩
      intro x hx
      obtain ⟨hx1, hx2⟩ := mem_sremove hx
      rcases mem_sinsert hx1 with hx3 | hx3
      · exact mem_mkeys_mput c.next_id c.id_map (hsub x hx3)
      · exact absurd hx3 hx2
  | delete c id hc ih =>
    obtain ⟨hsub, hnd, hnk⟩ := ih
    unfold Collection.delete_vector
    by_cases hcond : (mcontains id c.id_map = true ∧ ¬ smem id c.deleted_ids = true)
    · rw [if_pos hcond]
      refine ⟨?_, sinsert_nodup hnd, hnk⟩
      intro x hx
      rcases mem_sinsert hx with hx2 | hx2
      · exact hsub x hx2
      · subst hx2
        exact (mget_isSome_iff_mem_keys x c.id_map).mp hcond.1
    · rw [if_neg hcond]
      exact ⟨hsub, hnd, hnk⟩
  | checkpoint c hc ih =>
    obtain ⟨hsub, hnd, hnk⟩ := ih
    unfold build_index_collection
    by_cases hd : c.deleted_ids.isEmpty
    · simp only [hd, if_true]
      exact ⟨hsub, hnd, hnk⟩
    · simp only [hd, if_false]
      refine ⟨?_, ?_, ?_⟩
      · intro x hx
        simp [Collection.rebuild_from_vectors] at hx
      · simp [Collection.rebuild_from_vectors]
      · simp only [Collection.rebuild_from_vectors]
        exact foldl_removeDeletedStep_keys_nodup c.deleted_ids c hnk

/-- The parsable snapshot with a tombstone for an id absent from id_map. -/
def orphanTombstoneMeta : Metadata :=
  { dimensions := 1
    next_id := 0
    id_map := []
    deleted_ids := ["a"]
    vectors := [] }

/-- C10: active_count underflow — every collection reachable through the
façade keeps each tombstone inside id_map, so |deleted_ids| ≤ |id_map| and
the usize subtraction in active_count cannot underflow; but load_collection
restores deleted_ids without that containment check, and there is a parsable
snapshot whose load yields |id_map| < |deleted_ids|, on which the
subtraction in stats or search underflows. -/
theorem C10_active_count_underflow :
    (∀ c, Reachable c → (∀ x ∈ c.deleted_ids, x ∈ mkeys c.id_map) ∧
      c.deleted_ids.length ≤ c.id_map.length) ∧
    (∃ c', load_collection (some orphanTombstoneMeta) "p" = Except.ok (some c') ∧
      c'.id_map.length < c'.deleted_ids.length) := by
  constructor
  · intro c hc
    obtain ⟨hsub, hnd, hnk⟩ := reachable_tombstone_inv c hc
    refine ⟨hsub, ?_⟩
    have hfin : c.deleted_ids.toFinset ⊆ (mkeys c.id_map).toFinset := by
      intro a ha
      exact List.mem_toFinset.mpr (hsub a (List.mem_toFinset.mp ha))
    calc c.deleted_ids.length = c.deleted_ids.toFinset.card :=
          (List.toFinset_card_of_nodup hnd).symm
      _ ≤ (mkeys c.id_map).toFinset.card := Finset.card_le_card hfin
      _ ≤ (mkeys c.id_map).length := (mkeys c.id_map).toFinset_card_le
      _ = c.id_map.length := by simp [mkeys]
  · exact ⟨{ hnsw := []
             id_map := []
             reverse_map := []
             deleted_ids := ["a"]
             next_id := 0
             dimensions := 1
             path := "p"
             dirty := false
             vectors := [] }, by decide, by decide⟩

/-- Witness for C10 at the freshly created collection. -/
theorem C10_active_count_underflow_witness :
    (∀ x ∈ (Collection.new "p" 1).deleted_ids, x ∈ mkeys (Collection.new "p" 1).id_map) ∧
    (Collection.new "p" 1).deleted_ids.length ≤ (Collection.new "p" 1).id_map.length :=
  C10_active_count_underflow.1 (Collection.new "p" 1) (Reachable.new "p" 1)
